import Mathlib

/-
Verification of the evaluator core of a small untyped lambda-calculus
interpreter (term model, variable analysis, rewriter, alpha-equivalence
oracle).  The definitions below are a shallow embedding of the C++ source:
   - ast.h            : the term type (Expr with Var / Apply / Lambda / Let)
   - eval.cpp         : evaluate, eval, beta_reduction, alpha_conversion,
                        find_substitutions, substitute, _find_variables,
                        replace_vars (single pass), fresh_name
   - util.cpp         : replace_vars_once / replace_vars (fixed point),
                        _find_variables with a depth limit, alpha_equivalent
The repository holds two versions of beta_reduction: one that never
descends into the argument of an application (eval.cpp of source/) and one
with an extra branch that descends into an argument that is itself an
application (the second eval.cpp).  Both are embedded (betaStepS and
betaStepU).

Modelling choices, each noted again at the definition it concerns:
   - source locations are dropped (they feed diagnostics only);
   - cloning is the identity on values, so clone() disappears;
   - the C++ identifies occurrences and binders by pointer; the embedding
     identifies an occurrence or a binder by its path from the root of the
     tree the pointer lives in, which in-place alpha-conversion never moves;
   - std::set<const Var*> iterates in pointer order; the embedding lists
     free occurrences in left-to-right traversal order;
   - the abort() branches for a Let below the top level (unreachable for
     evaluator inputs) are modelled as inert results.
-/

namespace Lam

/-- The term type of ast.h: Var, Apply, Lambda, Let (locations dropped). -/
inductive Expr where
  | var (name : String)
  | app (fn arg : Expr)
  | lam (arg : String) (body : Expr)
  | lett (name : String) (value : Expr)
deriving DecidableEq

/-- One child edge of a term node; a list of these is the path identifying a
subterm, playing the role the C++ pointers play. -/
inductive Step where
  | fn
  | arg
  | body
  | val
deriving DecidableEq

abbrev Path := List Step

/-- The interpreter context: the definitions map (Context::vars), modelled as
an association list with unique keys kept by ctxSet. -/
abbrev Ctx := List (String × Expr)

/-- The trace events of the reduction: defined (for Let), one per
alpha-conversion, one per beta-reduction.  The printed snapshots are
recoverable from the surrounding terms and are not part of the event. -/
inductive TraceEvent where
  | defined (name : String) (redefinition : Bool)
  | alphaConv (oldName newName : String)
  | betaRed (param : String) (argument : Expr)
deriving DecidableEq

/-- The runtime tag of a node (EXPR_VAR, EXPR_APPLY, EXPR_LAMBDA, EXPR_LET). -/
def tagOf : Expr → Nat
  | .var _ => 1
  | .app _ _ => 2
  | .lam _ _ => 3
  | .lett _ _ => 4

def isLamB : Expr → Bool
  | .lam _ _ => true
  | _ => false

def isLetB : Expr → Bool
  | .lett _ _ => true
  | _ => false

/-- Fetch the subterm a path points at. -/
def getAt : Expr → Path → Option Expr
  | e, [] => some e
  | .app f _, .fn :: p => getAt f p
  | .app _ a, .arg :: p => getAt a p
  | .lam _ b, .body :: p => getAt b p
  | .lett _ v, .val :: p => getAt v p
  | _, _ :: _ => none

/-- Replace the subterm a path points at (identity when the path is dead). -/
def setAt : Expr → Path → Expr → Expr
  | _, [], v => v
  | .app f a, .fn :: p, v => .app (setAt f p v) a
  | .app f a, .arg :: p, v => .app f (setAt a p v)
  | .lam x b, .body :: p, v => .lam x (setAt b p v)
  | .lett n w, .val :: p, v => .lett n (setAt w p v)
  | e, _ :: _, _ => e

/-- fresh_name of eval.cpp and util.cpp: append a prime. -/
def freshName (name : String) : String := name ++ "'"

/-- _find_variables with Bound = false: the free occurrences of a term.  The
C++ returns the set of Var pointers and consults only their names; the
embedding returns the names of the free occurrences in traversal order
(fn before arg), duplicates kept, one entry per occurrence.  The seen
parameter is the map of enclosing binder names (only its keys matter in the
C++, so it is a list of names here). -/
def freeOccs (seen : List String) : Expr → List String
  | .var n => if n ∈ seen then [] else [n]
  | .app f a => freeOccs seen f ++ freeOccs seen a
  | .lam x b => freeOccs (x :: seen) b
  | .lett _ _ => []

/-- _find_variables with Bound = false and MaxDepth given: traversal stops
descending into a Lambda body once the depth limit is reached.  The Apply
case of the C++ recurses through the default instantiation, so an
application resets the limit to unlimited: this is faithful to the source. -/
def findVarsLimited (maxDepth : Nat) (seen : List String) : Expr → Nat → List String
  | .var n, _ => if n ∈ seen then [] else [n]
  | .app f a, _ => freeOccs seen f ++ freeOccs seen a
  | .lam x b, depth =>
      if depth < maxDepth then findVarsLimited maxDepth (x :: seen) b (depth + 1) else []
  | .lett _ _, _ => []

/-- The one-level free-variable query of the alpha-equivalence oracle. -/
def freeD1 (seen : List String) (e : Expr) : List String :=
  findVarsLimited 1 seen e 0

/-- std::map lookup on an association list (first match). -/
def lookupPath : List (String × Path) → String → Option Path
  | [], _ => none
  | (k, v) :: rest, n => if n = k then some v else lookupPath rest n

/-- std::map::insert: adds the pair only when the key is absent. -/
def mapInsert (m : List (String × Path)) (kv : String × Path) : List (String × Path) :=
  if (lookupPath m kv.1).isSome then m else m ++ [kv]

/-- Merging two bound-variable maps as the Apply case of _find_variables
does: insert the left map first, then each right entry if its key is absent. -/
def mapMerge (l r : List (String × Path)) : List (String × Path) :=
  r.foldl mapInsert l

/-- _find_variables with Bound = true: walks the term carrying the map of
enclosing binders (name to the binder, identified here by its path from the
traversal root); at a variable occurrence whose name is bound, yields that
map entry.  A binder whose name never occurs below it contributes nothing,
and std::map::insert keeps the first (outermost) binder of each name. -/
def findBoundVarsAux (seen : List (String × Path)) : Expr → Path → List (String × Path)
  | .var n, _ =>
      match lookupPath seen n with
      | some q => [(n, q)]
      | none => []
  | .app f a, p => mapMerge (findBoundVarsAux seen f (p ++ [.fn])) (findBoundVarsAux seen a (p ++ [.arg]))
  | .lam x b, p => findBoundVarsAux (mapInsert seen (x, p)) b (p ++ [.body])
  | .lett _ _, _ => []

/-- find_bound_variables: the bound-variable map of a term, paths rooted at
the term itself. -/
def findBoundVariables (e : Expr) : List (String × Path) :=
  findBoundVarsAux [] e []

/-- find_substitutions: the slots (paths from the given root) where the
variable would be substituted, stopping at any Lambda that re-binds it.  The
C++ returns Expr** slots; the root slot itself is the empty path. -/
def findSubstitutions : Expr → String → List Path
  | .var n, v => if n = v then [[]] else []
  | .app f a, v =>
      (findSubstitutions f v).map (Step.fn :: ·) ++ (findSubstitutions a v).map (Step.arg :: ·)
  | .lam x b, v => if x = v then [] else (findSubstitutions b v).map (Step.body :: ·)
  | .lett _ _, _ => []

/-- substitute: write a clone of the value into every slot. -/
def substitute (e : Expr) (sites : List Path) (value : Expr) : Expr :=
  sites.foldl (fun acc p => setAt acc p value) e

/-- alpha_conversion of eval.cpp: rename name to fresh below a node.  At a
Lambda whose parameter equals the fresh name, the source renames that binder
to a freshened fresh name and switches to renaming fresh below it (the
original rename is not continued in that subtree). -/
def alphaConversion : Expr → String → String → Expr
  | .var n, name, fresh => if n = name then .var fresh else .var n
  | .app f a, name, fresh => .app (alphaConversion f name fresh) (alphaConversion a name fresh)
  | .lam x b, name, fresh =>
      if x = fresh then
        .lam (freshName fresh) (alphaConversion b fresh (freshName fresh))
      else if x = name then
        .lam fresh (alphaConversion b name fresh)
      else
        .lam x (alphaConversion b name fresh)
  | .lett n v, _, _ => .lett n v

/-- Run alpha_conversion in place at the node a path points at, as
beta_reduction does through the bound-variable map pointer. -/
def alphaConvAt (e : Expr) (p : Path) (name fresh : String) : Expr :=
  match getAt e p with
  | some sub => setAt e p (alphaConversion sub name fresh)
  | none => e

/-- The conflict loop of beta_reduction: for each free occurrence of the
argument (in traversal order; the C++ iterates the pointer set), if its name
is a key of the bound map, alpha-convert that binder to the freshened name
and record the trace event. -/
def alphaLoop (bound : List (String × Path)) : Expr → List String → Expr × List TraceEvent
  | func, [] => (func, [])
  | func, f :: rest =>
      match lookupPath bound f with
      | some p =>
          let r := alphaLoop bound (alphaConvAt func p f (freshName f)) rest
          (r.1, .alphaConv f (freshName f) :: r.2)
      | none => alphaLoop bound func rest

/-- The redex branch of beta_reduction, shared by both versions: convert
conflicting binders, find the substitution slots for the (possibly renamed)
parameter in the (possibly renamed) body, substitute the argument, return
the body.  The Lambda shape survives the conversions, so the fallback none
is unreachable. -/
def betaContract (p : String) (b : Expr) (argument : Expr) : Option (Expr × List TraceEvent) :=
  match alphaLoop (findBoundVariables (.lam p b)) (.lam p b) (freeOccs [] argument) with
  | (.lam q c, evs) => some (substitute c (findSubstitutions c q) argument, evs ++ [.betaRed q argument])
  | _ => none

/-- beta_reduction of eval.cpp in source/: reduce the redex, else recurse
into a function that is itself an application; never into the argument. -/
def betaStepS : Expr → Option (Expr × List TraceEvent)
  | .app (.lam p b) argument => betaContract p b argument
  | .app (.app f a) argument =>
      (betaStepS (.app f a)).map (fun r => (.app r.1 argument, r.2))
  | _ => none

/-- beta_reduction of the second eval.cpp: as betaStepS, with one more
else-if that recurses into an argument that is an application when the
function is neither a Lambda nor an application. -/
def betaStepU : Expr → Option (Expr × List TraceEvent)
  | .app (.lam p b) argument => betaContract p b argument
  | .app (.app f a) argument =>
      (betaStepU (.app f a)).map (fun r => (.app r.1 argument, r.2))
  | .app fn (.app f a) =>
      (betaStepU (.app f a)).map (fun r => (.app fn r.1, r.2))
  | _ => none

/-- eval of eval.cpp in source/: one reduction attempt; at an application
try beta_reduction, below a Lambda recurse into the body, else no step. -/
def evalStepS : Expr → Option (Expr × List TraceEvent)
  | .app f a => betaStepS (.app f a)
  | .lam p b => (evalStepS b).map (fun r => (.lam p r.1, r.2))
  | _ => none

/-- eval of the second eval.cpp (same shape, the other beta_reduction). -/
def evalStepU : Expr → Option (Expr × List TraceEvent)
  | .app f a => betaStepU (.app f a)
  | .lam p b => (evalStepU b).map (fun r => (.lam p r.1, r.2))
  | _ => none

/-- The driver loop of evaluate: repeat eval from the root until it reports
no step.  The C++ loop has no bound; the fuel returns none where the C++
would still be running. -/
def reduceLoopS : Nat → Expr → Option (Expr × List TraceEvent)
  | 0, _ => none
  | fuel + 1, e =>
      match evalStepS e with
      | none => some (e, [])
      | some r => (reduceLoopS fuel r.1).map (fun s => (s.1, r.2 ++ s.2))

/-- The driver loop over evalStepU. -/
def reduceLoopU : Nat → Expr → Option (Expr × List TraceEvent)
  | 0, _ => none
  | fuel + 1, e =>
      match evalStepU e with
      | none => some (e, [])
      | some r => (reduceLoopU fuel r.1).map (fun s => (s.1, r.2 ++ s.2))

/-- Context lookup (Context::vars.find). -/
def ctxFind : Ctx → String → Option Expr
  | [], _ => none
  | (m, v) :: rest, n => if n = m then some v else ctxFind rest n

/-- Context store (ctx.vars[name] = value): overwrite or append. -/
def ctxSet : Ctx → String → Expr → Ctx
  | [], n, v => [(n, v)]
  | (m, w) :: rest, n, v => if n = m then (n, v) :: rest else (m, w) :: ctxSet rest n v

/-- replace_vars of eval.cpp in source/ (single pass): replace every free
occurrence whose name is defined in the context by a clone of the
definition.  The C++ tests membership of the occurrence in the free set
computed once at the root; an occurrence is in that set exactly when no
enclosing binder carries its name, so the embedding tracks the enclosing
binder names instead. -/
def replaceVarsE (ctx : Ctx) (bound : List String) : Expr → Expr
  | .var n =>
      if n ∈ bound then .var n
      else
        match ctxFind ctx n with
        | some v => v
        | none => .var n
  | .app f a => .app (replaceVarsE ctx bound f) (replaceVarsE ctx bound a)
  | .lam x b => .lam x (replaceVarsE ctx (x :: bound) b)
  | .lett n v => .lett n v

/-- replace_vars_once of util.cpp: the same pass, also reporting whether a
replacement happened. -/
def replaceVarsOnce (ctx : Ctx) (bound : List String) : Expr → Expr × Bool
  | .var n =>
      if n ∈ bound then (.var n, false)
      else
        match ctxFind ctx n with
        | some v => (v, true)
        | none => (.var n, false)
  | .app f a =>
      (.app (replaceVarsOnce ctx bound f).1 (replaceVarsOnce ctx bound a).1,
        (replaceVarsOnce ctx bound f).2 || (replaceVarsOnce ctx bound a).2)
  | .lam x b => (.lam x (replaceVarsOnce ctx (x :: bound) b).1, (replaceVarsOnce ctx (x :: bound) b).2)
  | .lett n v => (.lett n v, false)

/-- replace_vars of util.cpp: repeat the pass until nothing changes.  The
C++ loop has no bound; the fuel returns none where it would still loop. -/
def replaceVarsU : Nat → Ctx → Expr → Option Expr
  | 0, _, _ => none
  | fuel + 1, ctx, e =>
      if (replaceVarsOnce ctx [] e).2 then replaceVarsU fuel ctx (replaceVarsOnce ctx [] e).1
      else some (replaceVarsOnce ctx [] e).1

/-- evaluate of eval.cpp in source/: a Let stores a clone of its value and
returns the value; anything else is inlined against the context and driven
to a fixed point of eval.  The result triple is the context after the call,
the returned term and the emitted trace. -/
def evaluateS (fuel : Nat) (ctx : Ctx) : Expr → Option (Ctx × Expr × List TraceEvent)
  | .lett n v => some (ctxSet ctx n v, v, [.defined n (ctxFind ctx n).isSome])
  | e => (reduceLoopS fuel (replaceVarsE ctx [] e)).map (fun r => (ctx, r.1, r.2))

/-- std::set<std::string> equality on name lists: same members. -/
def nameSetEq (xs ys : List String) : Bool :=
  xs.all (ys.contains ·) && ys.all (xs.contains ·)

/-- The CheckState of the alpha-equivalence oracle: each bound name's binder
depth, and the binder map fed to the one-level free-variable query (only its
keys are consulted, so it is a list of names here). -/
structure CheckState where
  varDepths : List (String × Nat)
  binds : List String
deriving DecidableEq

/-- Association update with overwrite (std::map operator[] assignment). -/
def updateAssoc : List (String × Nat) → String → Nat → List (String × Nat)
  | [], n, d => [(n, d)]
  | (m, c) :: rest, n, d => if n = m then (n, d) :: rest else (m, c) :: updateAssoc rest n d

def lookupNat : List (String × Nat) → String → Option Nat
  | [], _ => none
  | (m, c) :: rest, n => if n = m then some c else lookupNat rest n

/-- Key insert keeping the key set (bindings[arg] = lambda changes no key
when the key is present). -/
def insertKey (ks : List String) (k : String) : List String :=
  if k ∈ ks then ks else ks ++ [k]

def extendState (st : CheckState) (x : String) (depth : Nat) : CheckState :=
  ⟨updateAssoc st.varDepths x depth, insertKey st.binds x⟩

/-- The recursive alpha_equivalent of util.cpp: same tag, equal one-level
free-name sets, then variables must both resolve to a binder at the same
depth (the source returns false when both are free), applications recurse
with unchanged scopes, lambdas extend both scopes with their parameter at
the current depth. -/
def alphaEquivalentAux (a b : Expr) (depth : Nat) (sa sb : CheckState) : Bool :=
  if tagOf a ≠ tagOf b then false
  else if ¬ nameSetEq (freeD1 sa.binds a) (freeD1 sb.binds b) then false
  else
    match a, b with
    | .var n1, .var n2 =>
        match lookupNat sa.varDepths n1, lookupNat sb.varDepths n2 with
        | some d1, some d2 => d1 == d2
        | _, _ => false
    | .app f1 a1, .app f2 a2 =>
        alphaEquivalentAux f1 f2 depth sa sb && alphaEquivalentAux a1 a2 depth sa sb
    | .lam x1 b1, .lam x2 b2 =>
        alphaEquivalentAux b1 b2 (depth + 1) (extendState sa x1 depth) (extendState sb x2 depth)
    | _, _ => false

/-- The public alpha_equivalent: evaluate the right term under the context
first, then compare with empty scopes. -/
def alphaEquivalentTop (fuel : Nat) (ctx : Ctx) (a b : Expr) : Option Bool :=
  (evaluateS fuel ctx b).map (fun r => alphaEquivalentAux a r.2.1 0 ⟨[], []⟩ ⟨[], []⟩)

/- Specification-side definitions, used only to state claims. -/

/-- A term contains a beta-redex somewhere (spec wording: normal form is a
term with no redex anywhere). -/
def hasRedex : Expr → Bool
  | .app (.lam _ _) _ => true
  | .app f a => hasRedex f || hasRedex a
  | .lam _ b => hasRedex b
  | .var _ => false
  | .lett _ v => hasRedex v

/-- Where the betaStepU search finds no redex: the function spine holds no
Lambda head, and where the head is a plain variable the argument spine (only
through applications) holds none either. -/
def appNFU : Expr → Bool
  | .app (.lam _ _) _ => false
  | .app (.app f a) _ => appNFU (.app f a)
  | .app _ (.app f a) => appNFU (.app f a)
  | _ => true

/-- Where the evalStepU search finds no redex: below the top-level Lambda
prefix, the application spine is appNFU-normal. -/
def evalNFU : Expr → Bool
  | .app f a => appNFU (.app f a)
  | .lam _ b => evalNFU b
  | _ => true

/-- The names having at least one bound occurrence (an occurrence below an
enclosing binder of the same name), given names already bound outside. -/
def boundOccNames (seen : List String) : Expr → List String
  | .var n => if n ∈ seen then [n] else []
  | .app f a => boundOccNames seen f ++ boundOccNames seen a
  | .lam x b => boundOccNames (x :: seen) b
  | .lett _ _ => []

/-- Every Lambda parameter occurring in a term. -/
def paramNames : Expr → List String
  | .var _ => []
  | .app f a => paramNames f ++ paramNames a
  | .lam x b => x :: paramNames b
  | .lett _ v => paramNames v

def countAlpha (evs : List TraceEvent) : Nat :=
  evs.countP fun ev => match ev with | .alphaConv _ _ => true | _ => false

def countBeta (evs : List TraceEvent) : Nat :=
  evs.countP fun ev => match ev with | .betaRed _ _ => true | _ => false

def countName (n : String) (l : List String) : Nat :=
  l.countP (fun s => s == n)

/-- The parameter name of the identity function after j conflict renames:
x, then x with one prime, then x with two primes where it stays. -/
def xnm : Nat → String
  | 0 => "x"
  | 1 => freshName "x"
  | _ + 2 => freshName (freshName "x")

/-- The identity function after j conflict renames. -/
def idF (j : Nat) : Expr := .lam (xnm j) (.var (xnm j))

/-- Whether the definitions of a context mention, freely, any name that is
itself defined (the hypothesis of the single-pass/fixed-point equivalence). -/
def goodCtx (ctx : Ctx) : Bool :=
  ctx.all fun kv => (ctx.map Prod.fst).all fun k => decide (k ∉ freeOccs [] kv.2)

end Lam

namespace Lam

/- Helper lemmas (shared). -/

theorem isLamB_alphaConversion (e : Expr) (n f : String) (h : isLamB e = true) :
    isLamB (alphaConversion e n f) = true := by
  cases e with
  | lam x b =>
      simp only [alphaConversion]
      split
      · rfl
      · split <;> rfl
  | var m => simp [isLamB] at h
  | app g a => simp [isLamB] at h
  | lett m v => simp [isLamB] at h

theorem isLamB_setAt_cons (x : String) (b : Expr) (s : Step) (p : Path) (v : Expr) :
    isLamB (setAt (.lam x b) (s :: p) v) = true := by
  cases s <;> rfl

theorem isLamB_alphaConvAt (e : Expr) (p : Path) (n f : String) (h : isLamB e = true) :
    isLamB (alphaConvAt e p n f) = true := by
  cases e with
  | lam x b =>
      cases p with
      | nil => exact isLamB_alphaConversion _ n f rfl
      | cons s rest =>
          unfold alphaConvAt
          cases hg : getAt (.lam x b) (s :: rest) with
          | none => rfl
          | some sub => simpa using isLamB_setAt_cons x b s rest (alphaConversion sub n f)
  | var m => simp [isLamB] at h
  | app g a => simp [isLamB] at h
  | lett m v => simp [isLamB] at h

theorem alphaLoop_isLam (bound : List (String × Path)) (frees : List String) :
    ∀ func, isLamB func = true → isLamB (alphaLoop bound func frees).1 = true := by
  induction frees with
  | nil => intro func h; exact h
  | cons f rest ih =>
      intro func h
      unfold alphaLoop
      cases hl : lookupPath bound f with
      | some p => simpa using ih _ (isLamB_alphaConvAt func p f (freshName f) h)
      | none => simpa using ih func h

theorem betaContract_isSome (p : String) (b a : Expr) :
    ∃ r, betaContract p b a = some r := by
  unfold betaContract
  have h := alphaLoop_isLam (findBoundVariables (.lam p b)) (freeOccs [] a) (.lam p b) rfl
  rcases hl : alphaLoop (findBoundVariables (.lam p b)) (.lam p b) (freeOccs [] a) with ⟨func, evs⟩
  rw [hl] at h
  cases func with
  | lam q c => exact ⟨_, rfl⟩
  | var m => simp [isLamB] at h
  | app g a2 => simp [isLamB] at h
  | lett m v => simp [isLamB] at h

theorem betaStepU_none_iff (e : Expr) : betaStepU e = none ↔ appNFU e = true := by
  induction e with
  | var n => simp [betaStepU, appNFU]
  | lett n v => simp [betaStepU, appNFU]
  | lam p b _ => simp [betaStepU, appNFU]
  | app fn arg ihf iha =>
      cases fn with
      | lam p b =>
          obtain ⟨r, hr⟩ := betaContract_isSome p b arg
          simp [betaStepU, hr, appNFU]
      | app f a =>
          simpa [betaStepU, appNFU, Option.map_eq_none'] using ihf
      | var n =>
          cases arg with
          | app f a => simpa [betaStepU, appNFU, Option.map_eq_none'] using iha
          | var m => simp [betaStepU, appNFU]
          | lam q c => simp [betaStepU, appNFU]
          | lett m v => simp [betaStepU, appNFU]
      | lett n v =>
          cases arg with
          | app f a => simpa [betaStepU, appNFU, Option.map_eq_none'] using iha
          | var m => simp [betaStepU, appNFU]
          | lam q c => simp [betaStepU, appNFU]
          | lett m v => simp [betaStepU, appNFU]

theorem evalStepU_none_iff (e : Expr) : evalStepU e = none ↔ evalNFU e = true := by
  induction e with
  | var n => simp [evalStepU, evalNFU]
  | lett n v => simp [evalStepU, evalNFU]
  | app f a _ _ => simpa [evalStepU, evalNFU] using betaStepU_none_iff (.app f a)
  | lam p b ih => simpa [evalStepU, evalNFU, Option.map_eq_none'] using ih

end Lam

namespace Lam

/-- C2 counterexample: a term whose reduction terminates at once (the driver
finds no step), yet a beta-redex remains inside the lambda in argument
position, so the result is not a full normal form. -/
theorem c2_counterexample :
    reduceLoopU 5 (.app (.var "f") (.lam "y" (.app (.lam "z" (.var "z")) (.var "y")))) =
      some (.app (.var "f") (.lam "y" (.app (.lam "z" (.var "z")) (.var "y"))), [])
    ∧ hasRedex (.app (.var "f") (.lam "y" (.app (.lam "z" (.var "z")) (.var "y")))) = true := by
  decide

/-- C2 (amended): whenever the reduction driver of the argument-descending
variant terminates, the returned term holds no beta-redex at any position
the search visits: below the top-level Lambda prefix, along left spines of
applications, and along argument spines headed by a variable (evalNFU);
redexes inside a Lambda in argument position, or in the argument of an
application whose head is an application, may remain. -/
theorem c2_search_normal :
    ∀ (fuel : Nat) (e : Expr) (res : Expr × List TraceEvent),
      reduceLoopU fuel e = some res → evalNFU res.1 = true := by
  intro fuel
  induction fuel with
  | zero => intro e res h; simp [reduceLoopU] at h
  | succ n ih =>
      intro e res h
      unfold reduceLoopU at h
      cases hs : evalStepU e with
      | none =>
          rw [hs] at h
          simp only [Option.some.injEq] at h
          rw [← h]
          exact (evalStepU_none_iff e).mp hs
      | some r =>
          rw [hs] at h
          obtain ⟨s, hs2, hres⟩ := Option.map_eq_some'.mp h
          rw [← hres]
          exact ih r.1 s hs2

/-- Witness for c2_search_normal at a concrete terminating run. -/
theorem c2_search_normal_witness : evalNFU (Expr.var "a") = true :=
  c2_search_normal 3 (.app (.lam "x" (.var "x")) (.var "a"))
    (.var "a", [.betaRed "x" (.var "a")]) (by decide)

/-- C1: evaluating the spec input produces the captured result.  With the
context empty, (lambda x. lambda y. x) applied to the free variable y
evaluates, with no alpha-conversion event, to lambda y. y: the free y of the
argument is captured by the inner binder, because find_bound_variables
records only binders whose name occurs below them, so the inner binder of y
(whose body is x) is missed and no renaming happens.  The claim (and the
spec) require the result lambda y-prime. y. -/
theorem c1_capture_result :
    evaluateS 10 [] (.app (.lam "x" (.lam "y" (.var "x"))) (.var "y")) =
      some ([], .lam "y" (.var "y"), [.betaRed "x" (.var "y")]) := by
  decide

/-- C3: reflexivity of the alpha-equivalence oracle fails on a single free
variable.  The one-level free-name sets agree, but the Var versus Var case
returns false when neither name resolves to a binder, so the oracle denies
that the term x is alpha-equivalent to itself, both in the recursive core
and through the public entry point that evaluates the right side first. -/
theorem c3_reflexivity_fails :
    alphaEquivalentAux (.var "x") (.var "x") 0 ⟨[], []⟩ ⟨[], []⟩ = false
    ∧ alphaEquivalentTop 5 [] (.var "x") (.var "x") = some false := by
  decide

/-- C4: alpha-conversion breaks alpha-equivalence when the fresh name
collides with an inner binder.  Renaming x to y in lambda x. lambda y. x
(y is not free in the body) yields lambda y. lambda y-prime. x: the inner
binder is renamed, but the rename of x is abandoned below it, so x, bound
in the input, is free in the output (witnessed by the free-variable query
of the source itself). -/
theorem c4_alpha_conversion_breaks :
    alphaConversion (.lam "x" (.lam "y" (.var "x"))) "x" "y" =
      .lam "y" (.lam (freshName "y") (.var "x"))
    ∧ freeOccs [] (.lam "x" (.lam "y" (.var "x"))) = []
    ∧ freeOccs [] (.lam "y" (.lam (freshName "y") (.var "x"))) = ["x"] := by
  decide

/-- C5 counterexample: the parameter y of lambda y. x is bound in the term
but never occurs in its scope, so it is not a key of the bound-variable
map; and for nested binders of one name the map keeps the outermost, not
the innermost: lambda x. lambda x. x maps x to the root binder. -/
theorem c5_counterexample :
    ("y" ∈ paramNames (.lam "y" (.var "x"))
      ∧ lookupPath (findBoundVariables (.lam "y" (.var "x"))) "y" = none)
    ∧ findBoundVariables (.lam "x" (.lam "x" (.var "x"))) = [("x", [])] := by
  decide

end Lam

namespace Lam

/- Helpers for the identity-application analysis (claim C6). -/

theorem fbv_identity : findBoundVariables (.lam "x" (.var "x")) = [("x", [])] := by
  decide

theorem alphaConvAt_idF : ∀ j, alphaConvAt (idF j) [] "x" (freshName "x") = idF (j + 1) := by
  intro j
  match j with
  | 0 => decide
  | 1 => decide
  | n + 2 => exact (by decide : alphaConvAt (idF 2) [] "x" (freshName "x") = idF 3)

theorem alphaLoop_idF :
    ∀ (fs : List String) (j : Nat),
      alphaLoop [("x", [])] (idF j) fs =
        (idF (j + countName "x" fs),
          List.replicate (countName "x" fs) (.alphaConv "x" (freshName "x"))) := by
  intro fs
  induction fs with
  | nil => intro j; simp [alphaLoop, countName]
  | cons f rest ih =>
      intro j
      by_cases hf : f = "x"
      · subst hf
        have hc : countName "x" ("x" :: rest) = countName "x" rest + 1 := by
          simp [countName, List.countP_cons]
        rw [hc]
        have hidx : j + (countName "x" rest + 1) = (j + 1) + countName "x" rest := by omega
        rw [hidx, List.replicate_succ]
        have hlk : lookupPath [("x", ([] : Path))] "x" = some [] := by decide
        simp only [alphaLoop, hlk]
        rw [alphaConvAt_idF j, ih (j + 1)]
      · have hc : countName "x" (f :: rest) = countName "x" rest := by
          simp [countName, List.countP_cons, hf]
        rw [hc]
        have hl : lookupPath [("x", ([] : Path))] f = none := by
          simp [lookupPath, hf]
        simp only [alphaLoop, hl]
        exact ih j

theorem countAlpha_replicate (n : Nat) (a b : String) :
    countAlpha (List.replicate n (.alphaConv a b)) = n := by
  induction n with
  | zero => rfl
  | succ m ih => simp [List.replicate_succ, countAlpha, List.countP_cons] at ih ⊢; omega

theorem countBeta_replicate (n : Nat) (a b : String) :
    countBeta (List.replicate n (.alphaConv a b)) = 0 := by
  induction n with
  | zero => rfl
  | succ m ih => simp [List.replicate_succ, countBeta, List.countP_cons, ih]

theorem countName_eq_zero (n : String) (l : List String) : countName n l = 0 ↔ n ∉ l := by
  induction l with
  | nil => simp [countName]
  | cons a rest ih =>
      by_cases ha : a = n
      · subst ha
        simp [countName, List.countP_cons]
      · simp only [countName, List.countP_cons] at ih ⊢
        simp [ha, ih, Ne.symm ha]

/-- C6 counterexample: for the argument x (which the parameter name of the
identity occurs in freely), evaluating (lambda x. x) x performs an
alpha-conversion step (the binder is renamed to x-prime) before the single
beta step, though the result is still the argument; the claim promises no
alpha-conversion step for any argument. -/
theorem c6_counterexample :
    reduceLoopS 5 (.app (.lam "x" (.var "x")) (.var "x")) =
      some (.var "x", [.alphaConv "x" (freshName "x"), .betaRed (freshName "x") (.var "x")]) := by
  decide

/-- C6 (amended): one reduction step on (lambda x. x) A returns exactly A
with exactly one beta-reduction event, for every argument A; the step emits
one alpha-conversion event per free occurrence of x in A, hence none
exactly when x is not free in A. -/
theorem c6_identity_beta :
    ∀ A : Expr, ∃ evs,
      betaStepS (.app (.lam "x" (.var "x")) A) = some (A, evs)
      ∧ countBeta evs = 1
      ∧ countAlpha evs = countName "x" (freeOccs [] A)
      ∧ (countAlpha evs = 0 ↔ "x" ∉ freeOccs [] A) := by
  intro A
  refine ⟨List.replicate (countName "x" (freeOccs [] A)) (.alphaConv "x" (freshName "x"))
      ++ [.betaRed (xnm (countName "x" (freeOccs [] A))) A], ?_, ?_, ?_, ?_⟩
  · show betaContract "x" (.var "x") A = _
    unfold betaContract
    rw [fbv_identity]
    have h0 : (Expr.lam "x" (.var "x")) = idF 0 := rfl
    rw [h0, alphaLoop_idF (freeOccs [] A) 0]
    simp only [Nat.zero_add, idF]
    have hs : findSubstitutions (.var (xnm (countName "x" (freeOccs [] A))))
        (xnm (countName "x" (freeOccs [] A))) = [[]] := by
      simp [findSubstitutions]
    rw [hs]
    simp [substitute, setAt]
  · simp [countBeta, List.countP_append, countBeta_replicate, List.countP_cons]
  · simp [countAlpha, List.countP_append, List.countP_cons]
    simpa [countAlpha] using countAlpha_replicate (countName "x" (freeOccs [] A)) "x" (freshName "x")
  · rw [show countAlpha (List.replicate (countName "x" (freeOccs [] A)) (.alphaConv "x" (freshName "x"))
        ++ [.betaRed (xnm (countName "x" (freeOccs [] A))) A]) = countName "x" (freeOccs [] A) from ?_]
    · exact countName_eq_zero "x" (freeOccs [] A)
    · simp [countAlpha, List.countP_append, List.countP_cons]
      simpa [countAlpha] using countAlpha_replicate (countName "x" (freeOccs [] A)) "x" (freshName "x")

end Lam

namespace Lam

/- Context lemmas. -/

theorem ctxFind_ctxSet_self (ctx : Ctx) (n : String) (v : Expr) :
    ctxFind (ctxSet ctx n v) n = some v := by
  induction ctx with
  | nil => simp [ctxSet, ctxFind]
  | cons kv rest ih =>
      obtain ⟨k, w⟩ := kv
      by_cases h : n = k
      · subst h; simp [ctxSet, ctxFind]
      · simp [ctxSet, ctxFind, h, ih]

theorem ctxFind_ctxSet_ne (ctx : Ctx) (n : String) (v : Expr) (m : String) (h : m ≠ n) :
    ctxFind (ctxSet ctx n v) m = ctxFind ctx m := by
  induction ctx with
  | nil => simp [ctxSet, ctxFind, h]
  | cons kv rest ih =>
      obtain ⟨k, w⟩ := kv
      by_cases hn : n = k
      · subst hn; simp [ctxSet, ctxFind, h]
      · by_cases hm2 : m = k <;> simp [ctxSet, ctxFind, hn, hm2, ih]

/-- C7: the context is mutated only by a Let: for every non-Let input on
which evaluate returns, the context component of the result is the context
that was passed in.  (That the input tree itself is never mutated is the
other half of the claim: the rewriter works on the output of replaceVarsE,
a fresh tree, which the functional embedding renders as clone being the
identity.) -/
theorem c7_ctx_frame (fuel : Nat) (ctx : Ctx) (e : Expr) (r : Ctx × Expr × List TraceEvent)
    (hnl : isLetB e = false) (hr : evaluateS fuel ctx e = some r) : r.1 = ctx := by
  cases e with
  | lett n v => simp [isLetB] at hnl
  | var n =>
      obtain ⟨s, _, hret⟩ := Option.map_eq_some'.mp hr
      rw [← hret]
  | app f a =>
      obtain ⟨s, _, hret⟩ := Option.map_eq_some'.mp hr
      rw [← hret]
  | lam x b =>
      obtain ⟨s, _, hret⟩ := Option.map_eq_some'.mp hr
      rw [← hret]

/-- Witness for c7_ctx_frame at a concrete run. -/
theorem c7_ctx_frame_witness : (([], Expr.var "a", ([] : List TraceEvent)) : Ctx × Expr × List TraceEvent).1 = ([] : Ctx) :=
  c7_ctx_frame 1 [] (.var "a") ([], .var "a", []) (by decide) (by decide)

/-- C10: evaluating a Let stores the value itself (unreduced: no reduction
pass touches it), returns the value, emits exactly one defined event (no
alpha-conversion, no beta-reduction), and every other definition of the
context is unchanged. -/
theorem c10_let_define (fuel : Nat) (ctx : Ctx) (n : String) (v : Expr) (m : String)
    (hm : m ≠ n) :
    evaluateS fuel ctx (.lett n v) =
        some (ctxSet ctx n v, v, [.defined n (ctxFind ctx n).isSome])
    ∧ ctxFind (ctxSet ctx n v) n = some v
    ∧ ctxFind (ctxSet ctx n v) m = ctxFind ctx m
    ∧ countAlpha [TraceEvent.defined n (ctxFind ctx n).isSome] = 0
    ∧ countBeta [TraceEvent.defined n (ctxFind ctx n).isSome] = 0 := by
  refine ⟨rfl, ctxFind_ctxSet_self ctx n v, ctxFind_ctxSet_ne ctx n v m hm, rfl, rfl⟩

/-- Witness for c10_let_define at a concrete definition. -/
theorem c10_let_define_witness :
    ctxFind (ctxSet [] "I" (.lam "a" (.var "a"))) "J" = ctxFind [] "J" :=
  (c10_let_define 1 [] "I" (.lam "a" (.var "a")) "J" (by decide)).2.2.1

end Lam

namespace Lam

/- Context-inlining lemmas (claim C8). -/

theorem rvO_fst (ctx : Ctx) : ∀ (e : Expr) (bound : List String),
    (replaceVarsOnce ctx bound e).1 = replaceVarsE ctx bound e := by
  intro e
  induction e with
  | var n =>
      intro bound
      by_cases hb : n ∈ bound
      · simp [replaceVarsOnce, replaceVarsE, hb]
      · cases hc : ctxFind ctx n <;> simp [replaceVarsOnce, replaceVarsE, hb, hc]
  | app f a ihf iha => intro bound; simp [replaceVarsOnce, replaceVarsE, ihf, iha]
  | lam x b ih => intro bound; simp [replaceVarsOnce, replaceVarsE, ih]
  | lett n v => intro bound; rfl

theorem ctxFind_mem (ctx : Ctx) (n : String) (v : Expr) (h : ctxFind ctx n = some v) :
    (n, v) ∈ ctx := by
  induction ctx with
  | nil => simp [ctxFind] at h
  | cons kv rest ih =>
      obtain ⟨k, w⟩ := kv
      by_cases hk : n = k
      · subst hk
        simp [ctxFind] at h
        simp [h]
      · simp [ctxFind, hk] at h
        simp [ih h]

theorem ctxFind_isSome_mem_keys (ctx : Ctx) (k : String) (h : (ctxFind ctx k).isSome = true) :
    k ∈ ctx.map Prod.fst := by
  induction ctx with
  | nil => simp [ctxFind] at h
  | cons kv rest ih =>
      obtain ⟨m, w⟩ := kv
      by_cases hk : k = m
      · simp [hk]
      · simp [ctxFind, hk] at h
        simp [ih h]

theorem freeOccs_anti : ∀ (e : Expr) (s t : List String), (∀ m, m ∈ s → m ∈ t) →
    ∀ k, k ∈ freeOccs t e → k ∈ freeOccs s e := by
  intro e
  induction e with
  | var n =>
      intro s t hst k hk
      by_cases hnt : n ∈ t
      · simp [freeOccs, hnt] at hk
      · simp [freeOccs, hnt] at hk
        rw [hk]
        have hns : n ∉ s := fun hmem => hnt (hst n hmem)
        simp [freeOccs, hns]
  | app f a ihf iha =>
      intro s t hst k hk
      simp only [freeOccs, List.mem_append] at hk ⊢
      rcases hk with hk | hk
      · exact Or.inl (ihf s t hst k hk)
      · exact Or.inr (iha s t hst k hk)
  | lam x b ih =>
      intro s t hst k hk
      simp only [freeOccs] at hk ⊢
      refine ih (x :: s) (x :: t) ?_ k hk
      intro m hm
      rcases List.mem_cons.mp hm with hm | hm
      · simp [hm]
      · simp [hst m hm]
  | lett n v =>
      intro s t hst k hk
      simp [freeOccs] at hk

theorem goodCtx_spec (ctx : Ctx) (hg : goodCtx ctx = true) :
    ∀ n v, ctxFind ctx n = some v → ∀ k, (ctxFind ctx k).isSome = true →
      k ∉ freeOccs [] v := by
  intro n v hnv k hk
  have hmem := ctxFind_mem ctx n v hnv
  have hkk := ctxFind_isSome_mem_keys ctx k hk
  simp only [goodCtx, List.all_eq_true, decide_eq_true_eq] at hg
  exact hg (n, v) hmem k hkk

theorem rvE_no_free_keys (ctx : Ctx) (hg : goodCtx ctx = true) :
    ∀ (e : Expr) (bound : List String) (k : String), (ctxFind ctx k).isSome = true →
      k ∉ freeOccs bound (replaceVarsE ctx bound e) := by
  intro e
  induction e with
  | var n =>
      intro bound k hk
      by_cases hb : n ∈ bound
      · simp [replaceVarsE, hb, freeOccs]
      · cases hc : ctxFind ctx n with
        | none =>
            simp only [replaceVarsE, hb, if_neg hb, hc, freeOccs]
            intro hkn
            have hkeq : k = n := by simpa using hkn
            rw [hkeq, hc] at hk
            exact Bool.noConfusion hk
        | some v =>
            simp only [replaceVarsE, if_neg hb, hc]
            intro hmem
            exact goodCtx_spec ctx hg n v hc k hk
              (freeOccs_anti v [] bound (by simp) k hmem)
  | app f a ihf iha =>
      intro bound k hk
      simp only [replaceVarsE, freeOccs, List.mem_append]
      rintro (hk2 | hk2)
      · exact ihf bound k hk hk2
      · exact iha bound k hk hk2
  | lam x b ih =>
      intro bound k hk
      simp only [replaceVarsE, freeOccs]
      exact ih (x :: bound) k hk
  | lett n v =>
      intro bound k hk
      simp [replaceVarsE, freeOccs]

theorem rvO_unchanged (ctx : Ctx) :
    ∀ (e : Expr) (bound : List String),
      (∀ k, (ctxFind ctx k).isSome = true → k ∉ freeOccs bound e) →
      replaceVarsOnce ctx bound e = (e, false) := by
  intro e
  induction e with
  | var n =>
      intro bound h
      by_cases hb : n ∈ bound
      · simp [replaceVarsOnce, hb]
      · cases hc : ctxFind ctx n with
        | none => simp [replaceVarsOnce, hb, hc]
        | some v =>
            exfalso
            exact h n (by simp [hc]) (by simp [freeOccs, hb])
  | app f a ihf iha =>
      intro bound h
      have hf := ihf bound (fun k hk hmem => h k hk (by simp [freeOccs, List.mem_append, hmem]))
      have ha := iha bound (fun k hk hmem => h k hk (by simp [freeOccs, List.mem_append, hmem]))
      simp [replaceVarsOnce, hf, ha]
  | lam x b ih =>
      intro bound h
      have hb := ih (x :: bound) (fun k hk hmem => h k hk (by simpa [freeOccs] using hmem))
      simp [replaceVarsOnce, hb]
  | lett n v => intro bound h; rfl

/-- C8: for a context whose definitions mention, freely, no name that is
itself defined, the single-pass inliner of eval.cpp and the fixed-point
inliner of util.cpp agree: the loop stops within two passes (so it
terminates for every fuel of at least two) and returns exactly the
single-pass result, for every input term. -/
theorem c8_inliner_equiv (ctx : Ctx) (e : Expr) (fuel : Nat)
    (hg : goodCtx ctx = true) (hf : 2 ≤ fuel) :
    replaceVarsU fuel ctx e = some (replaceVarsE ctx [] e) := by
  obtain ⟨k, rfl⟩ : ∃ k, fuel = k + 2 := ⟨fuel - 2, by omega⟩
  have hfix : replaceVarsOnce ctx [] (replaceVarsE ctx [] e) = (replaceVarsE ctx [] e, false) :=
    rvO_unchanged ctx _ [] (fun k2 hk2 => rvE_no_free_keys ctx hg e [] k2 hk2)
  by_cases h1 : (replaceVarsOnce ctx [] e).2
  · have step1 : replaceVarsU (k + 2) ctx e = replaceVarsU (k + 1) ctx (replaceVarsE ctx [] e) := by
      simp [replaceVarsU, h1, rvO_fst]
    rw [step1]
    simp [replaceVarsU, hfix, rvO_fst]
  · simp [replaceVarsU, h1, rvO_fst]

/-- Witness for c8_inliner_equiv at a concrete context and term. -/
theorem c8_inliner_equiv_witness :
    replaceVarsU 2 [("I", .lam "a" (.var "a"))] (.app (.var "I") (.var "b")) =
      some (replaceVarsE [("I", .lam "a" (.var "a"))] [] (.app (.var "I") (.var "b"))) :=
  c8_inliner_equiv [("I", .lam "a" (.var "a"))] (.app (.var "I") (.var "b")) 2
    (by decide) (by decide)

end Lam

namespace Lam

/- Path and map lemmas (claim C5). -/

theorem getAt_append : ∀ (p : Path) (e : Expr) (q : Path),
    getAt e (p ++ q) = (getAt e p).bind (fun s => getAt s q) := by
  intro p
  induction p with
  | nil => intro e q; simp [getAt]
  | cons s rest ih => intro e q; cases e <;> cases s <;> simp [getAt, ih]

theorem lookupPath_isSome_iff : ∀ (m : List (String × Path)) (n : String),
    (lookupPath m n).isSome = true ↔ n ∈ m.map Prod.fst := by
  intro m n
  induction m with
  | nil => simp [lookupPath]
  | cons kv rest ih =>
      obtain ⟨k, v⟩ := kv
      by_cases h : n = k <;> simp [lookupPath, h, ih]

theorem lookupPath_mem : ∀ (m : List (String × Path)) (n : String) (p : Path),
    lookupPath m n = some p → (n, p) ∈ m := by
  intro m n p
  induction m with
  | nil => intro h; simp [lookupPath] at h
  | cons kv rest ih =>
      obtain ⟨k, v⟩ := kv
      intro h
      by_cases hk : n = k
      · subst hk
        simp [lookupPath] at h
        simp [h]
      · simp [lookupPath, hk] at h
        simp [ih h]

theorem mem_keys_mapInsert (m : List (String × Path)) (kv : String × Path) (n : String) :
    n ∈ (mapInsert m kv).map Prod.fst ↔ n ∈ m.map Prod.fst ∨ n = kv.1 := by
  unfold mapInsert
  by_cases h : (lookupPath m kv.1).isSome = true
  · have hk : kv.1 ∈ m.map Prod.fst := (lookupPath_isSome_iff m kv.1).mp h
    simp only [h, if_true]
    constructor
    · exact Or.inl
    · rintro (hn | rfl)
      · exact hn
      · exact hk
  · simp only [h, if_false, Bool.false_eq_true]
    simp

theorem mem_mapInsert (m : List (String × Path)) (kv x : String × Path)
    (h : x ∈ mapInsert m kv) : x ∈ m ∨ x = kv := by
  unfold mapInsert at h
  by_cases hs : (lookupPath m kv.1).isSome = true
  · rw [if_pos hs] at h
    exact Or.inl h
  · rw [if_neg hs] at h
    simpa using h

theorem mem_keys_mapMerge : ∀ (r l : List (String × Path)) (n : String),
    n ∈ (mapMerge l r).map Prod.fst ↔ n ∈ l.map Prod.fst ∨ n ∈ r.map Prod.fst := by
  intro r
  induction r with
  | nil => intro l n; simp [mapMerge]
  | cons kv rest ih =>
      intro l n
      have hstep : mapMerge l (kv :: rest) = mapMerge (mapInsert l kv) rest := rfl
      rw [hstep, ih (mapInsert l kv) n, mem_keys_mapInsert]
      simp only [List.map_cons, List.mem_cons]
      tauto

theorem mem_mapMerge : ∀ (r l : List (String × Path)) (x : String × Path),
    x ∈ mapMerge l r → x ∈ l ∨ x ∈ r := by
  intro r
  induction r with
  | nil => intro l x h; exact Or.inl h
  | cons kv rest ih =>
      intro l x h
      have hstep : mapMerge l (kv :: rest) = mapMerge (mapInsert l kv) rest := rfl
      rw [hstep] at h
      rcases ih (mapInsert l kv) x h with h2 | h2
      · rcases mem_mapInsert l kv x h2 with h3 | h3
        · exact Or.inl h3
        · exact Or.inr (by simp [h3])
      · exact Or.inr (by simp [h2])

theorem boundOccNames_congr : ∀ (e : Expr) (s1 s2 : List String),
    (∀ m, m ∈ s1 ↔ m ∈ s2) → boundOccNames s1 e = boundOccNames s2 e := by
  intro e
  induction e with
  | var n =>
      intro s1 s2 h
      by_cases h1 : n ∈ s1
      · have h2 := (h n).mp h1
        simp [boundOccNames, h1, h2]
      · have h2 : n ∉ s2 := fun hm => h1 ((h n).mpr hm)
        simp [boundOccNames, h1, h2]
  | app f a ihf iha => intro s1 s2 h; simp [boundOccNames, ihf s1 s2 h, iha s1 s2 h]
  | lam x b ih =>
      intro s1 s2 h
      simp only [boundOccNames]
      refine ih (x :: s1) (x :: s2) ?_
      intro m
      simp [List.mem_cons, h m]
  | lett n v => intro s1 s2 h; rfl

theorem findBV_keys : ∀ (e : Expr) (seen : List (String × Path)) (p : Path) (n : String),
    (lookupPath (findBoundVarsAux seen e p) n).isSome = true
      ↔ n ∈ boundOccNames (seen.map Prod.fst) e := by
  intro e
  induction e with
  | var v =>
      intro seen p n
      cases hq : lookupPath seen v with
      | none =>
          have hv : v ∉ seen.map Prod.fst := by
            rw [← lookupPath_isSome_iff]
            simp [hq]
          simp [findBoundVarsAux, hq, lookupPath, boundOccNames, hv]
      | some q =>
          have hv : v ∈ seen.map Prod.fst := by
            rw [← lookupPath_isSome_iff]
            simp [hq]
          by_cases hn : n = v <;> simp [findBoundVarsAux, hq, lookupPath, boundOccNames, hv, hn]
  | app f a ihf iha =>
      intro seen p n
      simp only [findBoundVarsAux, boundOccNames, List.mem_append]
      rw [lookupPath_isSome_iff, mem_keys_mapMerge, ← lookupPath_isSome_iff, ← lookupPath_isSome_iff]
      rw [ihf seen (p ++ [Step.fn]) n, iha seen (p ++ [Step.arg]) n]
  | lam x b ih =>
      intro seen p n
      simp only [findBoundVarsAux, boundOccNames]
      rw [ih (mapInsert seen (x, p)) (p ++ [Step.body]) n]
      rw [boundOccNames_congr b ((mapInsert seen (x, p)).map Prod.fst) (x :: seen.map Prod.fst) ?_]
      intro m
      rw [mem_keys_mapInsert]
      simp only [List.mem_cons]
      tauto
  | lett nm v =>
      intro seen p n
      simp [findBoundVarsAux, lookupPath, boundOccNames]

theorem findBV_sound : ∀ (e root : Expr) (seen : List (String × Path)) (p : Path),
    getAt root p = some e →
    (∀ x ∈ seen, ∃ b, getAt root x.2 = some (.lam x.1 b)) →
    ∀ y ∈ findBoundVarsAux seen e p, ∃ b, getAt root y.2 = some (.lam y.1 b) := by
  intro e
  induction e with
  | var v =>
      intro root seen p hp hseen y hy
      cases hq : lookupPath seen v with
      | none => simp [findBoundVarsAux, hq] at hy
      | some q =>
          simp [findBoundVarsAux, hq] at hy
          rw [hy]
          exact hseen (v, q) (lookupPath_mem seen v q hq)
  | app f a ihf iha =>
      intro root seen p hp hseen y hy
      have hf : getAt root (p ++ [Step.fn]) = some f := by
        rw [getAt_append, hp]
        simp [getAt]
      have ha : getAt root (p ++ [Step.arg]) = some a := by
        rw [getAt_append, hp]
        simp [getAt]
      rcases mem_mapMerge _ _ y hy with h2 | h2
      · exact ihf root seen (p ++ [Step.fn]) hf hseen y h2
      · exact iha root seen (p ++ [Step.arg]) ha hseen y h2
  | lam x b ih =>
      intro root seen p hp hseen y hy
      have hb : getAt root (p ++ [Step.body]) = some b := by
        rw [getAt_append, hp]
        simp [getAt]
      refine ih root (mapInsert seen (x, p)) (p ++ [Step.body]) hb ?_ y hy
      intro z hz
      rcases mem_mapInsert seen (x, p) z hz with h2 | h2
      · exact hseen z h2
      · rw [h2]
        exact ⟨b, hp⟩
  | lett nm v =>
      intro root seen p hp hseen y hy
      simp [findBoundVarsAux] at hy

/-- C5 (amended): the bound-variable map of a term has as keys exactly the
names with at least one bound occurrence in the term (a Lambda parameter
that never occurs in its scope is absent), and each entry points at a
Lambda node of the term that binds that name (the traversal keeps the first
binder it records per name, not the innermost). -/
theorem c5_bound_map :
    ∀ e : Expr,
      (∀ n, (lookupPath (findBoundVariables e) n).isSome = true ↔ n ∈ boundOccNames [] e)
      ∧ (∀ n p, (n, p) ∈ findBoundVariables e → ∃ b, getAt e p = some (.lam n b)) := by
  intro e
  constructor
  · intro n
    simpa using findBV_keys e [] [] n
  · intro n p hm
    exact findBV_sound e e [] [] (by simp [getAt]) (by simp) (n, p) hm

/-- Witness for c5_bound_map at a concrete term and entry. -/
theorem c5_bound_map_witness :
    ∃ b, getAt (Expr.lam "x" (.var "x")) [] = some (.lam "x" b) :=
  (c5_bound_map (.lam "x" (.var "x"))).2 "x" [] (by decide)

end Lam
